import Mathlib

/-!
Verification development for the document-structure reconstruction core of the
OCR_For_RM_rules repository: a shallow embedding of `src/path_encoder.py`,
`src/segmenter.py` and `src/text_cleaner.py` together with theorems about the
testable properties of those modules.

Modelling conventions:
* Python strings are embedded as `List Char` (`PyStr`); all operations are
  defined character-by-character, mirroring the Python string/regex semantics.
* Python floats (OCR confidences, bbox coordinates, thresholds) are embedded
  as rationals `ℚ`; the comparisons performed by the code are order
  comparisons that rationals mirror exactly.
* The regex character class `\d` and `str.isdigit` are modelled as ASCII
  digits `0`-`9`, and `\s` / `str.strip` as the ASCII whitespace characters;
  the exotic non-ASCII digit/whitespace code points accepted by Python are
  not exercised by any property below.
* File/JSON I/O and log formatting are external side effects and are not
  modelled; the functions below embed the pure transformations performed on
  the in-memory node/chunk/section values.
-/

/-- Python strings are modelled as lists of characters. -/
abbrev PyStr := List Char

/-- ASCII whitespace, modelling Python's `\s` class and `str.strip`. -/
def isSpacePy (c : Char) : Bool :=
  c = ' ' || c = '\t' || c = '\n' || c = '\r' || c = '\x0b' || c = '\x0c'

/-- ASCII decimal digit, modelling the regex class `\d` and `str.isdigit`. -/
def isDigitPy (c : Char) : Bool := '0' ≤ c && c ≤ '9'

/-- ASCII letter, modelling the regex class `[a-zA-Z]`. -/
def isAlphaPy (c : Char) : Bool := ('a' ≤ c && c ≤ 'z') || ('A' ≤ c && c ≤ 'Z')

/-- Python `str.strip()`: drop leading and trailing whitespace. -/
def stripChars (s : PyStr) : PyStr :=
  ((s.dropWhile isSpacePy).reverse.dropWhile isSpacePy).reverse

/-- Auxiliary recursion for `collapseWS`; the flag records whether the
previous character was whitespace (i.e. we are inside a whitespace run). -/
def collapseWSAux : Bool → PyStr → PyStr
  | _, [] => []
  | inRun, c :: rest =>
    if isSpacePy c then
      if inRun then collapseWSAux true rest
      else ' ' :: collapseWSAux true rest
    else c :: collapseWSAux false rest

/-- Python `re.sub(r'\s+', ' ', s)`: replace each whitespace run by one space. -/
def collapseWS (s : PyStr) : PyStr := collapseWSAux false s

/-- Python `'.'.join` / `' '.join`: interleave a separator between parts. -/
def joinWith (sep : PyStr) (parts : List PyStr) : PyStr := List.intercalate sep parts

/-- Python `sep.join` for the one-character separator `'.'`. -/
def joinDot (parts : List PyStr) : PyStr := joinWith ['.'] parts

/-- Python `' '.join`. -/
def joinSpace (parts : List PyStr) : PyStr := joinWith [' '] parts

/-- Python `str.split(sep)` for a one-character separator: split at every
occurrence, keeping empty fragments (`"a..b".split('.') = ['a','','b']`). -/
def splitOnChar (sep : Char) (s : PyStr) : List PyStr :=
  s.foldr
    (fun c acc =>
      match acc with
      | [] => [[c]]
      | a :: as => if c = sep then [] :: a :: as else (c :: a) :: as)
    [[]]

/-- Python `pat in s` (substring containment). -/
def containsSub (pat s : PyStr) : Bool := decide (pat <:+: s)

/-- Python `s.startswith(pat)`. -/
def startsWith (pat s : PyStr) : Bool := decide (pat <+: s)

/-- The character `'0' + d` for a digit value `d < 10`. -/
def digitChar (d : Nat) : Char := Char.ofNat (48 + d)

/-- Fuel-driven most-significant-first decimal digits of a natural number
(the fuel makes the recursion structural; `natChars` supplies enough). -/
def natCharsAux : Nat → Nat → List Char
  | 0, _ => []
  | fuel + 1, n =>
    if n < 10 then [digitChar n]
    else natCharsAux fuel (n / 10) ++ [digitChar (n % 10)]

/-- Decimal representation of a natural number, as produced by Python `str`. -/
def natChars (n : Nat) : List Char := natCharsAux (n + 1) n

/-- Python `f"{n:03d}"`: decimal digits left-padded with zeros to width 3. -/
def pad3 (n : Nat) : PyStr :=
  let ds := natChars n
  List.replicate (3 - ds.length) '0' ++ ds

/-- Decimal parse of a digit string (use: proving `pad3` injective). -/
def parseNat (s : PyStr) : Nat :=
  s.foldl (fun a c => 10 * a + (c.toNat - 48)) 0

/-! ### Segmenter (`src/segmenter.py`)

`Segmenter.__init__` stores `min_length` / `max_length`; the jieba
initialization is an external side effect.  The sentence delimiter regex is
`[。！？；…\n]+` and the secondary punctuation string is `'，,、；;：:'`. -/

/-- Membership in the sentence-delimiter class `[。！？；…\n]`. -/
def isDelim (c : Char) : Bool :=
  c = '。' || c = '！' || c = '？' || c = '；' || c = '…' || c = '\n'

/-- Secondary punctuation marks `'，,、；;：:'` used by
`Segmenter._force_split_at_punctuation`. -/
def isPunctSec (c : Char) : Bool :=
  c = '，' || c = ',' || c = '、' || c = '；' || c = ';' || c = '：' || c = ':'

/-- One step (consuming one leading character) of `re.split` with a captured
delimiter-run group.  The accumulator is the split of the remaining suffix:
an alternating list `[text, delims, text, …]` beginning and ending with a
(possibly empty) text fragment. -/
def splitKDStep (c : Char) (parts : List PyStr) : List PyStr :=
  if isDelim c then
    match parts with
    | [] :: d :: ps => [] :: (c :: d) :: ps
    | _ => [] :: [c] :: parts
  else
    match parts with
    | p :: ps => (c :: p) :: ps
    | [] => [[c]]

/-- Python `re.split('([。！？；…\n]+)', s)`: the fragments between maximal
delimiter runs, with the runs themselves kept at the odd positions. -/
def splitKeepDelims (s : PyStr) : List PyStr := s.foldr splitKDStep [[]]

/-- The index-walking loop of `Segmenter.split_into_sentences`: append each
delimiter run to the fragment before it, strip, drop blank fragments.
`re.match(delims, q)` succeeds exactly when `q` starts with a delimiter. -/
def attachDelims : List PyStr → List PyStr
  | [] => []
  | p :: rest =>
    if stripChars p = [] then attachDelims rest
    else
      match rest with
      | [] => [stripChars p]
      | q :: rest2 =>
        match q with
        | [] => stripChars p :: attachDelims (q :: rest2)
        | qc :: _ =>
          if isDelim qc then stripChars (p ++ q) :: attachDelims rest2
          else stripChars p :: attachDelims (q :: rest2)

/-- `Segmenter.split_into_sentences`. -/
def splitIntoSentences (text : PyStr) : List PyStr :=
  if text = [] then [] else attachDelims (splitKeepDelims text)

/-- The loop of `Segmenter.merge_short_sentences` with its running buffer
(`current`); blank sentences are skipped, a buffer shorter than `min_length`
absorbs the next sentence, otherwise it is flushed. -/
def mergeShortAux (minLen : Nat) (current : PyStr) : List PyStr → List PyStr
  | [] => if current = [] then [] else [current]
  | s :: rest =>
    if stripChars s = [] then mergeShortAux minLen current rest
    else if current = [] then mergeShortAux minLen s rest
    else if current.length < minLen then mergeShortAux minLen (current ++ s) rest
    else current :: mergeShortAux minLen s rest

/-- `Segmenter.merge_short_sentences`. -/
def mergeShortSentences (minLen : Nat) (sentences : List PyStr) : List PyStr :=
  mergeShortAux minLen [] sentences

/-- The character loop of `Segmenter._force_split_at_punctuation`: grow
`current`; once it has reached `max_len` characters, flush at the next
secondary punctuation mark (inclusive). -/
def forceSplitGo (maxLen : Nat) (current : PyStr) : PyStr → List PyStr
  | [] => if current = [] then [] else [current]
  | c :: rest =>
    if maxLen ≤ (current ++ [c]).length && isPunctSec c then
      (current ++ [c]) :: forceSplitGo maxLen [] rest
    else forceSplitGo maxLen (current ++ [c]) rest

/-- `Segmenter._force_split_at_punctuation`. -/
def forceSplitAtPunctuation (maxLen : Nat) (text : PyStr) : List PyStr :=
  let parts := forceSplitGo maxLen [] text
  if parts = [] then [text] else parts

/-- The sentence-packing loop of `Segmenter.split_long_segment`:
`segs` are the emitted segments, `cur` the open segment. -/
def splitLongLoop (maxLen : Nat) (segs : List PyStr) (cur : PyStr) :
    List PyStr → List PyStr
  | [] => if cur = [] then segs else segs ++ [cur]
  | s :: rest =>
    if cur.length + s.length ≤ maxLen then splitLongLoop maxLen segs (cur ++ s) rest
    else
      let segs' := if cur = [] then segs else segs ++ [cur]
      if maxLen < s.length then
        let parts := forceSplitAtPunctuation maxLen s
        splitLongLoop maxLen (segs' ++ parts.dropLast) ((parts.getLast?).getD []) rest
      else splitLongLoop maxLen segs' s rest

/-- `Segmenter.split_long_segment`. -/
def splitLongSegment (maxLen : Nat) (text : PyStr) : List PyStr :=
  if text.length ≤ maxLen then [text]
  else splitLongLoop maxLen [] [] (splitIntoSentences text)

/-- `Segmenter.segment_text`: split into sentences, merge short ones, split
over-length units, then strip and drop empties. -/
def segmentText (minLen maxLen : Nat) (text : PyStr) : List PyStr :=
  if stripChars text = [] then []
  else
    let ss := mergeShortSentences minLen (splitIntoSentences text)
    let segs := ss.flatMap fun s =>
      if maxLen < s.length then splitLongSegment maxLen s else [s]
    segs.filterMap fun s => if stripChars s = [] then none else some (stripChars s)

/-! ### PathEncoder (`src/path_encoder.py`)

State: `doc_id`, `node_count`, `block_counter`, `current_path_stack`.
`detect_heading_level` is not needed by the properties below and is not
embedded.  In `build_path`, a segment that `isdigit` is parsed and formatted
with `f"{num:03d}"`, any other segment is replaced by `1` (the `except`
branch that passes a segment through literally can only fire for non-ASCII
digit code points, which are outside this model of `isdigit`). -/

/-- The mutable state of a `PathEncoder` instance. -/
structure EncState where
  doc_id : PyStr := []
  node_count : Nat := 0
  block_counter : Nat := 0
  stack : List PyStr := []
deriving DecidableEq

/-- The literal `".blk."` used as the auto-block separator. -/
def blkSep : PyStr := ['.', 'b', 'l', 'k', '.']

/-- The literal `"blk."` used for root-level auto blocks. -/
def blkDot : PyStr := ['b', 'l', 'k', '.']

/-- The literal `"heading"`. -/
def headingStr : PyStr := ['h', 'e', 'a', 'd', 'i', 'n', 'g']

/-- One component of `build_path`: `f"{int(part):03d}"` if the part is all
digits, else the `1` fallback formatted the same way. -/
def padPart (part : PyStr) : PyStr :=
  if part ≠ [] && part.all isDigitPy then pad3 (parseNat part) else pad3 1

/-- `PathEncoder._build_auto_path`: bump the block counter and emit
`"<parent>.blk.NNN"` (or root-level `"blk.NNN"`). -/
def buildAutoPath (st : EncState) : PyStr × EncState :=
  let c := st.block_counter + 1
  let p :=
    if st.stack = [] then blkDot ++ pad3 c
    else joinDot st.stack ++ blkSep ++ pad3 c
  (p, { st with block_counter := c })

/-- `PathEncoder.add_block_path` (delegates to `_build_auto_path`). -/
def addBlockPath (st : EncState) : PyStr × EncState := buildAutoPath st

/-- `PathEncoder.build_path`.  Note that splitting on `'.'` when the dot is
absent yields the one-element list, so the `if '.' in numbering` branch in
the source is the unconditional split.  `if level:` in Python is false for
`level = 0`, hence the explicit zero test. -/
def buildPath (numbering : PyStr) (level : Option Nat) (st : EncState) :
    PyStr × EncState :=
  if numbering = headingStr ∨ level = none then buildAutoPath st
  else
    let path_parts := (splitOnChar '.' numbering).map padPart
    let st' :=
      match level with
      | some l => if l = 0 then st else { st with stack := path_parts.take l }
      | none => st
    (joinDot path_parts, st')

/-- Index of the last occurrence of `pat` in `s` among positions `≤ i`
(`last occurrence` as used by Python `str.rsplit(pat, 1)`). -/
def lastOccAux (pat s : PyStr) : Nat → Option Nat
  | 0 => if startsWith pat s then some 0 else none
  | i + 1 =>
    if startsWith pat (s.drop (i + 1)) then some (i + 1) else lastOccAux pat s i

/-- Index of the last occurrence of `pat` in `s`, if any. -/
def lastOcc (pat s : PyStr) : Option Nat := lastOccAux pat s s.length

/-- Python `s.rsplit(pat, 1)[0]`: the text before the last occurrence. -/
def beforeLastOcc (pat s : PyStr) : PyStr :=
  match lastOcc pat s with
  | some i => s.take i
  | none => s

/-- `PathEncoder.get_parent_path`: strip a trailing `".blk.NNN"` (split at the
last `".blk."`), then drop the final dot-segment; `none` when at most one
segment remains. -/
def getParentPath (path : PyStr) : Option PyStr :=
  if path = [] then none
  else
    let p := if containsSub blkSep path then beforeLastOcc blkSep path else path
    let parts := splitOnChar '.' p
    if parts.length ≤ 1 then none
    else some (joinDot parts.dropLast)

/-- `PathEncoder.increment_node_count`. -/
def incrementNodeCount (st : EncState) : EncState :=
  { st with node_count := st.node_count + 1 }

/-- `PathEncoder.reset_for_new_section`: truncate the stack to `level` (when
possible) and zero the block counter. -/
def resetForNewSection (level : Nat) (st : EncState) : EncState :=
  let st1 :=
    if level ≤ st.stack.length then { st with stack := st.stack.take level }
    else st
  { st1 with block_counter := 0 }

/-- One call against a `PathEncoder` during a processing run: `build_path`
and the auto-block path emit a path, a section reset does not. -/
inductive POp where
  | build (numbering : PyStr) (level : Option Nat)
  | auto
  | reset (level : Nat)
deriving DecidableEq

/-- Execute one call, returning the emitted path (if any) and the new state. -/
def stepOp (st : EncState) : POp → Option PyStr × EncState
  | .build numbering level =>
    let (p, st') := buildPath numbering level st
    (some p, st')
  | .auto =>
    let (p, st') := buildAutoPath st
    (some p, st')
  | .reset level => (none, resetForNewSection level st)

/-- Execute a sequence of calls, collecting the emitted paths in order. -/
def runOps (st : EncState) : List POp → List PyStr × EncState
  | [] => ([], st)
  | op :: rest =>
    let (e, st') := stepOp st op
    let (ps, stF) := runOps st' rest
    (e.toList ++ ps, stF)

/-! ### TextCleaner (`src/text_cleaner.py`): data model -/

/-- The `bbox` field of a node record: absent, a JSON object with the four
optional coordinate keys, or present but not an object (e.g. a list).
`node.get('bbox', {})` turns an absent field into the empty object, so the
`missing` case is processed through the object branch of the loader. -/
inductive BBoxF where
  | missing
  | dict (left top right bottom : Option ℚ)
  | nonDict
deriving DecidableEq

/-- A raw node record as read from a page JSON file.  Only the keys consumed
by `TextCleaner` are modelled; each is optional in the source (`node.get`),
with the loader's defaults realized by the accessor functions below. -/
structure Node where
  content : PyStr := []
  content_type : Option PyStr := none
  ocr_confidence : Option ℚ := none
  bbox : BBoxF := .missing
  source_page : Nat := 0
deriving DecidableEq

/-- `node.get('ocr_confidence', 1.0)`. -/
def confVal (n : Node) : ℚ := n.ocr_confidence.getD 1

/-- `node['_bbox_top']` as computed by `_load_page_nodes`: `bbox.get('top', 0)`
for an object (the absent field behaves as the empty object), `0` otherwise. -/
def bboxTop (n : Node) : ℚ :=
  match n.bbox with
  | .dict _ t _ _ => t.getD 0
  | .missing => 0
  | .nonDict => 0

/-- `node['_bbox_left']` as computed by `_load_page_nodes`. -/
def bboxLeft (n : Node) : ℚ :=
  match n.bbox with
  | .dict l _ _ _ => l.getD 0
  | .missing => 0
  | .nonDict => 0

/-- `node['_bbox_height']` as computed by `_load_page_nodes`:
`bottom - top` for an object (hence `0` for a missing/empty bbox),
and the `10` fallback only for a non-object bbox value. -/
def bboxHeight (n : Node) : ℚ :=
  match n.bbox with
  | .dict _ t _ b => b.getD 0 - t.getD 0
  | .missing => 0
  | .nonDict => 10

/-- The literal `"page_raw_text"`. -/
def pageRawTextStr : PyStr :=
  ['p', 'a', 'g', 'e', '_', 'r', 'a', 'w', '_', 't', 'e', 'x', 't']

/-- The literal `"版权所有"` from the footer patterns. -/
def cpStr : PyStr := ['版', '权', '所', '有']

/-- Regex `.*lit` applied to `rest` (to the end of a `re.match` pattern):
`lit` must occur starting inside the prefix of `rest` that contains no
newline, since `.` does not match `'\n'`. -/
def dotstarThen (lit rest : PyStr) : Bool :=
  containsSub lit (rest.take ((rest.takeWhile (fun c => c ≠ '\n')).length + lit.length))

/-- Regex `\d{4}` at the head of `r`. -/
def fourDigits (r : PyStr) : Bool :=
  (r.take 4).length = 4 && (r.take 4).all isDigitPy

/-- Footer pattern 1: `^\d+\s*©\s*\d{4}.*版权所有`.  The split position of
`\d+` is existentially quantified, matching regex backtracking. -/
def matchFooter1 (s : PyStr) : Bool :=
  (List.range (s.length + 1)).any fun d1 =>
    0 < d1 && (s.take d1).all isDigitPy &&
    (match (s.drop d1).dropWhile isSpacePy with
     | c :: r2 =>
       c = '©' &&
       (let r3 := r2.dropWhile isSpacePy
        fourDigits r3 && dotstarThen cpStr (r3.drop 4))
     | [] => false)

/-- Footer pattern 2: `^©\s*\d{4}.*版权所有\s*\d+`; the occurrence of the
copyright literal picked by `.*` is existentially quantified. -/
def matchFooter2 (s : PyStr) : Bool :=
  match s with
  | c :: r1 =>
    c = '©' &&
    (let r2 := r1.dropWhile isSpacePy
     fourDigits r2 &&
     (let rest := r2.drop 4
      let k := (rest.takeWhile (fun c => c ≠ '\n')).length
      (List.range (k + 1)).any fun i =>
        startsWith cpStr (rest.drop i) &&
        (match (rest.drop (i + cpStr.length)).dropWhile isSpacePy with
         | d :: _ => isDigitPy d
         | [] => false)))
  | [] => false

/-- Footer pattern 3: `^\d+\s*①?\s*\d{4}.*版权所有` (backtracking split of
the leading digit run quantified as in pattern 1). -/
def matchFooter3 (s : PyStr) : Bool :=
  (List.range (s.length + 1)).any fun d1 =>
    0 < d1 && (s.take d1).all isDigitPy &&
    (let r1 := (s.drop d1).dropWhile isSpacePy
     let r2 :=
       match r1 with
       | c :: rest => if c = '①' then rest.dropWhile isSpacePy else r1
       | [] => r1
     fourDigits r2 && dotstarThen cpStr (r2.drop 4))

/-- Footer pattern 4: `^\d+\s*$` (a bare page number). -/
def matchFooter4 (s : PyStr) : Bool :=
  let d := s.takeWhile isDigitPy
  d ≠ [] && (s.drop d.length).all isSpacePy

/-- Footer pattern 5: `^[-=_]{3,}$` (a separator line). -/
def matchFooter5 (s : PyStr) : Bool :=
  3 ≤ s.length && s.all fun c => c = '-' || c = '=' || c = '_'

/-- `FOOTER_PATTERNS` matching, applied to the stripped content. -/
def isFooter (s : PyStr) : Bool :=
  matchFooter1 s || matchFooter2 s || matchFooter3 s || matchFooter4 s || matchFooter5 s

/-- Configuration of a `TextCleaner` (the `__init__` parameters; the log file
is an external side effect). -/
structure CleanCfg where
  confidence_threshold : ℚ := 1/10
  short_line_threshold : Nat := 20
  height_ratio_threshold : ℚ := 13/10
  min_gap_threshold : ℚ := 15
deriving DecidableEq

/-- Reason codes of the three drop rules of `_load_page_nodes`, in the order
the source tests them. -/
inductive DropReason where
  | rawText
  | lowConf
  | footer
deriving DecidableEq

/-- The filtering part of `TextCleaner._load_page_nodes`: skip
`page_raw_text` nodes, drop low-confidence nodes, drop footer/header noise;
`none` means the node survives. -/
def dropReason (cfg : CleanCfg) (n : Node) : Option DropReason :=
  if n.content_type = some pageRawTextStr then some .rawText
  else if confVal n < cfg.confidence_threshold then some .lowConf
  else if isFooter (stripChars n.content) then some .footer
  else none

/-- `(top, left)` lexicographic comparison used as the sort key. -/
def nodeLt (a b : Node) : Bool :=
  decide (bboxTop a < bboxTop b ∨ (bboxTop a = bboxTop b ∧ bboxLeft a < bboxLeft b))

/-- Stable insertion for `sortNodesByTopLeft`: `x` goes before the first
element not strictly below it, so original order is kept among equal keys. -/
def insertByTopLeft (x : Node) : List Node → List Node
  | [] => [x]
  | y :: ys => if nodeLt y x then y :: insertByTopLeft x ys else x :: y :: ys

/-- `valid_nodes.sort(key=lambda n: (n['_bbox_top'], n['_bbox_left']))`:
a stable sort by `(top, left)` (extensionally equal to Python's Timsort). -/
def sortNodesByTopLeft (l : List Node) : List Node := l.foldr insertByTopLeft []

/-- `TextCleaner._load_page_nodes` on the node list of one page json:
filter, then sort by `(top, left)`. -/
def loadPageNodes (cfg : CleanCfg) (nodes : List Node) : List Node :=
  sortNodesByTopLeft (nodes.filter fun n => (dropReason cfg n).isNone)

/-- The page loop of `clean_document`: load each page in page-number order
and concatenate (`all_nodes.extend(nodes)`). -/
def allDocNodes (cfg : CleanCfg) (pages : List (List Node)) : List Node :=
  (pages.map (loadPageNodes cfg)).flatten

/-- Document-wide average `_bbox_height` (`10.0` for an empty document). -/
def avgHeight (nodes : List Node) : ℚ :=
  let hs := nodes.map bboxHeight
  if hs = [] then 10 else hs.sum / hs.length

/-! ### TextCleaner: heading / list detection and the merging scan -/

/-- `HEADING_KEYWORDS`. -/
def headingKeywords : List PyStr :=
  [['附', '录'], ['章'], ['节'], ['说', '明'], ['流', '程'], ['规', '则'],
   ['处', '罚'], ['定', '义'], ['简', '介'], ['概', '述'], ['总', '则'],
   ['细', '则'], ['要', '求'], ['标', '准'], ['检', '录'], ['赛', '前'],
   ['赛', '中'], ['赛', '后'], ['机', '器', '人'], ['场', '地'], ['裁', '判']]

/-- The class `[一二三四五六七八九十]` of `NUMBERING_PATTERNS`. -/
def isCnNum (c : Char) : Bool :=
  c = '一' || c = '二' || c = '三' || c = '四' || c = '五' || c = '六' ||
  c = '七' || c = '八' || c = '九' || c = '十'

/-- Regex `^第[一二三四五六七八九十\d]+X` for a closing marker `X`
(`章` or `节`); the character class is disjoint from the closer, so maximal
munch coincides with backtracking. -/
def matchChapterMark (closer : Char) (s : PyStr) : Bool :=
  match s with
  | c :: rest =>
    c = '第' &&
    (let run := rest.takeWhile fun ch => isCnNum ch || isDigitPy ch
     run ≠ [] &&
     (match rest.drop run.length with
      | c2 :: _ => c2 = closer
      | [] => false))
  | [] => false

/-- Regex `^\d+\.\d+`. -/
def matchDotNum2 (s : PyStr) : Bool :=
  let d1 := s.takeWhile isDigitPy
  d1 ≠ [] &&
  (match s.drop d1.length with
   | '.' :: r2 => (r2.takeWhile isDigitPy) ≠ []
   | _ => false)

/-- Regex `^\d+\.\d+\.\d+`. -/
def matchDotNum3 (s : PyStr) : Bool :=
  let d1 := s.takeWhile isDigitPy
  d1 ≠ [] &&
  (match s.drop d1.length with
   | '.' :: r2 =>
     (let d2 := r2.takeWhile isDigitPy
      d2 ≠ [] &&
      (match r2.drop d2.length with
       | '.' :: r3 => (r3.takeWhile isDigitPy) ≠ []
       | _ => false))
   | _ => false)

/-- Regex `^[（\(][一二三四五六七八九十\d]+[）\)]`. -/
def matchParenCn (s : PyStr) : Bool :=
  match s with
  | o :: rest =>
    (o = '（' || o = '(') &&
    (let run := rest.takeWhile fun ch => isCnNum ch || isDigitPy ch
     run ≠ [] &&
     (match rest.drop run.length with
      | c2 :: _ => c2 = '）' || c2 = ')'
      | [] => false))
  | [] => false

/-- Regex `^[①②③④⑤⑥⑦⑧⑨⑩]`. -/
def matchCircled (s : PyStr) : Bool :=
  match s with
  | c :: _ =>
    c = '①' || c = '②' || c = '③' || c = '④' || c = '⑤' || c = '⑥' ||
    c = '⑦' || c = '⑧' || c = '⑨' || c = '⑩'
  | [] => false

/-- `NUMBERING_PATTERNS` matching (any of the six anchored patterns). -/
def numberingMatch (s : PyStr) : Bool :=
  matchChapterMark '章' s || matchChapterMark '节' s || matchDotNum2 s ||
  matchDotNum3 s || matchParenCn s || matchCircled s

/-- `SENTENCE_END_MARKS`.  The set literal in the source is
`{'。', '!', '?', ':', ':', ';', ';'}`: the colon and semicolon entries are
ASCII duplicates, so the set has the five members below. -/
def isEndMark (c : Char) : Bool :=
  c = '。' || c = '!' || c = '?' || c = ':' || c = ';'

/-- `content.endswith(mark)` for the one-character end marks. -/
def endsWithMark (s : PyStr) : Bool :=
  match s.getLast? with
  | some c => isEndMark c
  | none => false

/-- The continuation connectives `('但', '若', '如果', '且', '并', '同时')`. -/
def contWords : List PyStr :=
  [['但'], ['若'], ['如', '果'], ['且'], ['并'], ['同', '时']]

/-- List-prefix separator class `[.、)]`. -/
def isListSep (c : Char) : Bool := c = '.' || c = '、' || c = ')'

/-- `LIST_PREFIXES[0]`: `^[•\-·]`; returns `match.group()`. -/
def lpBullet (s : PyStr) : Option PyStr :=
  match s with
  | c :: _ => if c = '•' || c = '-' || c = '·' then some [c] else none
  | [] => none

/-- `LIST_PREFIXES[1]`: `^\d+[.、)]` (the separator class has no digits, so
maximal munch coincides with backtracking). -/
def lpNumSep (s : PyStr) : Option PyStr :=
  let d := s.takeWhile isDigitPy
  if d = [] then none
  else
    match s.drop d.length with
    | c :: _ => if isListSep c then some (d ++ [c]) else none
    | [] => none

/-- `LIST_PREFIXES[2]`: `^[a-zA-Z][.、)]`. -/
def lpAlphaSep (s : PyStr) : Option PyStr :=
  match s with
  | a :: c :: _ => if isAlphaPy a && isListSep c then some [a, c] else none
  | _ => none

/-- `LIST_PREFIXES[3]`: `^[（\(][a-zA-Z\d]+[）\)]`. -/
def lpParen (s : PyStr) : Option PyStr :=
  match s with
  | o :: rest =>
    if o = '（' || o = '(' then
      let run := rest.takeWhile fun ch => isAlphaPy ch || isDigitPy ch
      if run = [] then none
      else
        match rest.drop run.length with
        | c :: _ => if c = '）' || c = ')' then some (o :: (run ++ [c])) else none
        | [] => none
    else none
  | [] => none

/-- `TextCleaner._is_list_item`: the first matching list prefix (as the
matched text), `none` for a blank or non-matching content. -/
def isListItem (n : Node) : Option PyStr :=
  let content := stripChars n.content
  if content = [] then none
  else
    match lpBullet content with
    | some m => some m
    | none =>
      match lpNumSep content with
      | some m => some m
      | none =>
        match lpAlphaSep content with
        | some m => some m
        | none => lpParen content

/-- The literal `"unknown"` (the placeholder `'type'` of an open chunk). -/
def unknownStr : PyStr := ['u', 'n', 'k', 'n', 'o', 'w', 'n']

/-- The literal `"list"`. -/
def listStr : PyStr := ['l', 'i', 's', 't']

/-- The literal `"list_item"`. -/
def listItemStr : PyStr := ['l', 'i', 's', 't', '_', 'i', 't', 'e', 'm']

/-- The literal `"paragraph"`. -/
def paragraphStr : PyStr := ['p', 'a', 'r', 'a', 'g', 'r', 'a', 'p', 'h']

/-- `TextCleaner._is_heading` (the boolean part; the reason string is only
logged).  The five signals are tested in source order. -/
def isHeadingNode (cfg : CleanCfg) (avgH : ℚ) (n : Node) : Bool :=
  let content := stripChars n.content
  if content = [] then false
  else if n.content_type = some headingStr then true
  else if headingKeywords.any (fun k => containsSub k content) then true
  else if numberingMatch content then true
  else if content.length ≤ cfg.short_line_threshold ∧ endsWithMark content = false then true
  else if 0 < avgH ∧ cfg.height_ratio_threshold ≤ bboxHeight n / avgH then true
  else false

/-- `TextCleaner._should_break` for a non-empty open chunk whose last node is
`last` and whose `'type'` entry is `curType` (`none` when the open chunk was
started without a break, `some "unknown"` after a break; it is never
`"list"`, but the comparison is kept as in the source). -/
def shouldBreak (cfg : CleanCfg) (avgH : ℚ) (curType : Option PyStr)
    (last node : Node) : Bool :=
  if isHeadingNode cfg avgH node then true
  else if (isListItem node).isSome ∧ curType ≠ some listStr then true
  else if cfg.min_gap_threshold ≤ bboxTop node - (bboxTop last + bboxHeight last) then true
  else
    let lastContent := stripChars last.content
    if lastContent ≠ [] ∧ endsWithMark lastContent = true ∧
        contWords.any (fun w => startsWith w (stripChars node.content)) = false then true
    else false

/-- The incremental merging scan of `clean_document` (lines 350–384): `groups`
are the member lists of the flushed chunks, `cur` the members of the open
chunk, `lastN` its `'_last_node'` pointer and `ty` its `'type'` entry.
`_should_break` returns false for an empty open chunk, so the first node is
always appended. -/
def scanNodes (brk : Option PyStr → Node → Node → Bool)
    (groups : List (List Node)) (cur : List Node) (lastN : Option Node)
    (ty : Option PyStr) : List Node → List (List Node)
  | [] => if cur = [] then groups else groups ++ [cur]
  | n :: rest =>
    match lastN with
    | none => scanNodes brk groups (cur ++ [n]) (some n) ty rest
    | some last =>
      if brk ty last n then
        scanNodes brk (groups ++ [cur]) [n] (some n) (some unknownStr) rest
      else scanNodes brk groups (cur ++ [n]) (some n) ty rest

/-- The chunk member groups produced by `clean_document` from the loaded,
filtered, ordered node stream. -/
def cleanGroups (cfg : CleanCfg) (nodes : List Node) : List (List Node) :=
  scanNodes (shouldBreak cfg (avgHeight nodes)) [] [] none none nodes

/-! ### TextCleaner: chunk merging, and the SectionAggregator -/

/-- The merged bbox range of a chunk. -/
structure BRange where
  left : ℚ
  top : ℚ
  right : ℚ
  bottom : ℚ
deriving DecidableEq

/-- Python truthiness of `node.get('bbox')`: `None` (absent) and the empty
object are falsy; a non-empty object is truthy; a non-object value is
modelled as truthy (the source only ever receives lists there). -/
def bboxTruthy (b : BBoxF) : Bool :=
  match b with
  | .missing => false
  | .dict l t r bo => l.isSome || t.isSome || r.isSome || bo.isSome
  | .nonDict => true

/-- `b.get('left', 0)` on a bbox value (for a non-object value the source
would raise; that branch is unreachable in the properties below). -/
def bGetLeft (b : BBoxF) : ℚ :=
  match b with
  | .dict l _ _ _ => l.getD 0
  | _ => 0

/-- `b.get('top', 0)`. -/
def bGetTop (b : BBoxF) : ℚ :=
  match b with
  | .dict _ t _ _ => t.getD 0
  | _ => 0

/-- `b.get('right', 0)`. -/
def bGetRight (b : BBoxF) : ℚ :=
  match b with
  | .dict _ _ r _ => r.getD 0
  | _ => 0

/-- `b.get('bottom', 0)`. -/
def bGetBottom (b : BBoxF) : ℚ :=
  match b with
  | .dict _ _ _ bo => bo.getD 0
  | _ => 0

/-- Python `min` of a non-empty list (defaulting to `0` on `[]`, unreached). -/
def qMin (l : List ℚ) : ℚ :=
  match l with
  | [] => 0
  | x :: xs => xs.foldl min x

/-- Python `max` of a non-empty list (defaulting to `0` on `[]`, unreached). -/
def qMax (l : List ℚ) : ℚ :=
  match l with
  | [] => 0
  | x :: xs => xs.foldl max x

/-- Python `round` to an integer: round-half-to-even. -/
def roundHalfEven (q : ℚ) : ℤ :=
  let f := ⌊q⌋
  let r := q - f
  if r < 1/2 then f
  else if 1/2 < r then f + 1
  else if f % 2 = 0 then f else f + 1

/-- Python `round(q, 3)`. -/
def round3 (q : ℚ) : ℚ := (roundHalfEven (q * 1000) : ℚ) / 1000

/-- Mean of a list of rationals, `1.0` when empty (as in `_merge_chunk`). -/
def ratAvg (l : List ℚ) : ℚ := if l = [] then 1 else l.sum / l.length

/-- Sorted insertion without duplicates, for `sorted(set(...))`. -/
def insertSorted (x : Nat) : List Nat → List Nat
  | [] => [x]
  | y :: ys =>
    if x < y then x :: y :: ys
    else if x = y then y :: ys
    else y :: insertSorted x ys

/-- Python `sorted(set(l))` on naturals. -/
def sortedDedup (l : List Nat) : List Nat := l.foldr insertSorted []

/-- A chunk as emitted by `clean_document` (`ctype` models the `'type'`
key; the `'meta'` sub-dict is flattened into the `meta_*` fields). -/
structure Chunk where
  content : PyStr := []
  ctype : PyStr := []
  source_pages : List Nat := []
  bbox_range : Option BRange := none
  confidence_avg : ℚ := 1
  node_count : Nat := 0
  meta_first_page : Nat := 0
  meta_last_page : Nat := 0
  meta_indent_x : ℚ := 0
  meta_height_avg : ℚ := 0
  id : Nat := 0
deriving DecidableEq

/-- The normalized per-node content fragments collected by `_merge_chunk`:
strip, drop blanks, collapse internal whitespace runs to single spaces. -/
def mergeParts (nodes : List Node) : List PyStr :=
  nodes.filterMap fun n =>
    let t := stripChars n.content
    if t = [] then none else some (collapseWS t)

/-- `TextCleaner._merge_chunk` (the source returns `{}` on an empty member
list; that case is unreachable from `clean_document` and is modelled by the
default chunk). -/
def mergeChunk (nodes : List Node) : Chunk :=
  match nodes with
  | [] => {}
  | first :: _ =>
    let pages := sortedDedup (nodes.map Node.source_page)
    let bbs := nodes.filterMap fun n =>
      if bboxTruthy n.bbox then some n.bbox else none
    let bbr :=
      match bbs with
      | [] => none
      | b0 :: _ =>
        match b0 with
        | .dict _ _ _ _ =>
          some { left := qMin (bbs.map bGetLeft), top := qMin (bbs.map bGetTop),
                 right := qMax (bbs.map bGetRight),
                 bottom := qMax (bbs.map bGetBottom) }
        | _ => none
    { content := joinSpace (mergeParts nodes)
      ctype :=
        if first.content_type = some headingStr then headingStr
        else if (isListItem first).isSome then listItemStr
        else paragraphStr
      source_pages := pages
      bbox_range := bbr
      confidence_avg := round3 (ratAvg (nodes.map confVal))
      node_count := nodes.length
      meta_first_page := pages.headD 0
      meta_last_page := pages.getLastD 0
      meta_indent_x := bboxLeft first
      meta_height_avg := (nodes.map bboxHeight).sum / nodes.length
      id := 0 }

/-- `clean_document` output: merge each group and assign sequential 1-based
chunk ids in emission order. -/
def cleanChunks (cfg : CleanCfg) (nodes : List Node) : List Chunk :=
  ((cleanGroups cfg nodes).map mergeChunk).mapIdx fun i c => { c with id := i + 1 }

/-- The placeholder heading `"(文档前言)"` of a preamble section. -/
def preambleStr : PyStr := ['(', '文', '档', '前', '言', ')']

/-- The literal `"## "` markdown heading marker. -/
def hashPre : PyStr := ['#', '#', ' ']

/-- The literal `"- "` bullet marker. -/
def dashPre : PyStr := ['-', ' ']

/-- The `"\n\n"` paragraph separator. -/
def nlnl : PyStr := ['\n', '\n']

/-- A section as produced by `SectionAggregator._finalize_section`
(`page_first`/`page_last` model the `'page_range'` dict). -/
structure Section where
  heading : PyStr
  content : PyStr
  source_pages : List Nat
  page_first : Nat
  page_last : Nat
  chunk_count : Nat
  chunk_types : List (PyStr × Nat)
  heading_chunk_id : Option Nat
  content_chunk_ids : List Nat
deriving DecidableEq

/-- `chunk_type_counts[ctype] = chunk_type_counts.get(ctype, 0) + 1` on an
insertion-ordered association list (a Python dict). -/
def bumpCount (m : List (PyStr × Nat)) (k : PyStr) : List (PyStr × Nat) :=
  match m with
  | [] => [(k, 1)]
  | (k', v) :: rest =>
    if k' = k then (k', v + 1) :: rest else (k', v) :: bumpCount rest k

/-- `SectionAggregator._finalize_section`. -/
def finalizeSection (hc : Option Chunk) (cs : List Chunk) : Section :=
  let headingText :=
    match hc with
    | some h => h.content
    | none => preambleStr
  let allPages := sortedDedup
    ((match hc with | some h => h.source_pages | none => []) ++
      (cs.map Chunk.source_pages).flatten)
  let headParts : List PyStr :=
    match hc with
    | some _ => [hashPre ++ headingText]
    | none => []
  let bodyParts := cs.map fun c =>
    let t := stripChars c.content
    if c.ctype = listItemStr then dashPre ++ t else t
  { heading := headingText
    content := joinWith nlnl (headParts ++ bodyParts)
    source_pages := allPages
    page_first := allPages.headD 0
    page_last := allPages.getLastD 0
    chunk_count := cs.length
    chunk_types := cs.foldl (fun m c => bumpCount m c.ctype) []
    heading_chunk_id := hc.map Chunk.id
    content_chunk_ids := cs.map Chunk.id }

/-- The scan of `SectionAggregator.aggregate_sections`: `cur` is the open
section (`heading_chunk`, `content_chunks`), `none` before any chunk. -/
def aggAux (sections : List Section) (cur : Option (Option Chunk × List Chunk)) :
    List Chunk → List Section
  | [] =>
    match cur with
    | none => sections
    | some (hc, cs) => sections ++ [finalizeSection hc cs]
  | c :: rest =>
    if c.ctype = headingStr then
      match cur with
      | none => aggAux sections (some (some c, [])) rest
      | some (hc, cs) =>
        aggAux (sections ++ [finalizeSection hc cs]) (some (some c, [])) rest
    else
      match cur with
      | none => aggAux sections (some (none, [c])) rest
      | some (hc, cs) => aggAux sections (some (hc, cs ++ [c])) rest

/-- `SectionAggregator.aggregate_sections`. -/
def aggregateSections (chunks : List Chunk) : List Section := aggAux [] none chunks

/-- The chunk ids referenced by a section: its heading chunk id (if any)
followed by its content chunk ids. -/
def sectionChunkIds (s : Section) : List Nat :=
  (match s.heading_chunk_id with | some i => [i] | none => []) ++ s.content_chunk_ids

/-! ### Remaining definitions used only in theorem statements -/

/-- The numbering literal `"1.2.3"`. -/
def numStr123 : PyStr := ['1', '.', '2', '.', '3']

/-- The numbering literal `"1.2"`. -/
def numStr12 : PyStr := ['1', '.', '2']

/-- The common prefix of an auto-block path: the current stack joined with
dots followed by the block marker. -/
def autoPre (stack : List PyStr) : PyStr :=
  if stack = [] then blkDot else joinDot stack ++ blkSep

/-- The chunk ids held by the open section accumulator of `aggAux`. -/
def accIds : Option (Option Chunk × List Chunk) → List Nat
  | none => []
  | some (hc, cs) =>
    (match hc with | some h => [h.id] | none => []) ++ cs.map Chunk.id

/-- No secondary punctuation mark strictly between the length cutoff and the
end of `s`: position `i + 1` (1-based) at or past `maxLen` and before the
last character never holds a mark.  An over-length part produced by
`_force_split_at_punctuation` satisfies exactly this. -/
def PunctClause (maxLen : Nat) (s : PyStr) : Prop :=
  ∀ i : Nat, maxLen ≤ i + 1 → i + 1 < s.length → isPunctSec (s.getD i ' ') = false

/-- Strengthening of `PunctClause` that also covers the final character;
the running buffer of `_force_split_at_punctuation` satisfies this. -/
def PunctClauseStrong (maxLen : Nat) (s : PyStr) : Prop :=
  ∀ i : Nat, maxLen ≤ i + 1 → i + 1 ≤ s.length → isPunctSec (s.getD i ' ') = false

/-- Input of the `splitLongSegment` counterexample: `"abcdefg,hi"`. -/
def textOversize : PyStr := ['a', 'b', 'c', 'd', 'e', 'f', 'g', ',', 'h', 'i']

/-- Input of the `segmentText` counterexample: `"a\nb"`. -/
def textShortDelim : PyStr := ['a', '\n', 'b']

/-- Input of the `segmentText` witness: `"abc"`. -/
def textShortPlain : PyStr := ['a', 'b', 'c']

/-- The path literal `"001.002.blk.003"`. -/
def pathBlk123 : PyStr :=
  ['0', '0', '1', '.', '0', '0', '2', '.', 'b', 'l', 'k', '.', '0', '0', '3']

/-- The path literal `"001.002"`. -/
def path12 : PyStr := ['0', '0', '1', '.', '0', '0', '2']

/-- The path literal `"001"`. -/
def path1 : PyStr := ['0', '0', '1']

/-! ### Utility lemmas: `takeWhile` / `dropWhile` / `stripChars` -/

theorem takeWhile_all_eq {p : Char → Bool} :
    ∀ {l : PyStr}, (∀ c ∈ l, p c = true) → l.takeWhile p = l := by
  intro l
  induction l with
  | nil => intro _; rfl
  | cons c rest ih =>
    intro h
    have hc := h c (List.mem_cons_self c rest)
    simp [List.takeWhile_cons, hc]
    exact fun x hx => h x (List.mem_cons_of_mem c hx)

theorem dropWhile_all_nil {p : Char → Bool} :
    ∀ {l : PyStr}, (∀ c ∈ l, p c = true) → l.dropWhile p = [] := by
  intro l
  induction l with
  | nil => intro _; rfl
  | cons c rest ih =>
    intro h
    have hc := h c (List.mem_cons_self c rest)
    simp [List.dropWhile_cons, hc]
    exact fun x hx => h x (List.mem_cons_of_mem c hx)

theorem dropWhile_length_le {p : Char → Bool} :
    ∀ (l : PyStr), (l.dropWhile p).length ≤ l.length := by
  intro l
  induction l with
  | nil => simp
  | cons c rest ih =>
    by_cases hc : p c = true
    · simp [List.dropWhile_cons, hc]
      exact Nat.le_succ_of_le ih
    · simp [List.dropWhile_cons, hc]

theorem dropWhile_head_not {p : Char → Bool} :
    ∀ {l : PyStr} {c : Char} {rest : PyStr}, l.dropWhile p = c :: rest →
      p c = false := by
  intro l
  induction l with
  | nil => intro c rest h; simp at h
  | cons a as ih =>
    intro c rest h
    by_cases ha : p a = true
    · rw [List.dropWhile_cons, if_pos ha] at h
      exact ih h
    · rw [List.dropWhile_cons, if_neg ha] at h
      cases h
      simpa using ha

theorem stripChars_length_le (s : PyStr) : (stripChars s).length ≤ s.length := by
  unfold stripChars
  calc ((s.dropWhile isSpacePy).reverse.dropWhile isSpacePy).reverse.length
      = ((s.dropWhile isSpacePy).reverse.dropWhile isSpacePy).length := by
        simp
    _ ≤ (s.dropWhile isSpacePy).reverse.length := dropWhile_length_le _
    _ = (s.dropWhile isSpacePy).length := by simp
    _ ≤ s.length := dropWhile_length_le _

theorem dropWhile_eq_self_of_head {p : Char → Bool} {l : PyStr}
    (h : ∀ c rest, l = c :: rest → p c = false) : l.dropWhile p = l := by
  cases l with
  | nil => rfl
  | cons c rest =>
    rw [List.dropWhile_cons, if_neg]
    simp [h c rest rfl]

theorem stripChars_head_not {s : PyStr} {c : Char} {rest : PyStr}
    (h : stripChars s = c :: rest) : isSpacePy c = false := by
  unfold stripChars at h
  have hpre : (c :: rest) <+:  s.dropWhile isSpacePy := by
    have hsuff : ((s.dropWhile isSpacePy).reverse.dropWhile isSpacePy)
        <:+ (s.dropWhile isSpacePy).reverse := List.dropWhile_suffix _
    have := List.reverse_prefix.mpr hsuff
    simpa [h] using this
  obtain ⟨t, ht⟩ := hpre
  exact dropWhile_head_not ht.symm

theorem stripChars_getLast_not {s : PyStr} {c : Char}
    (h : (stripChars s).getLast? = some c) : isSpacePy c = false := by
  unfold stripChars at h
  rw [List.getLast?_reverse] at h
  cases hd : (s.dropWhile isSpacePy).reverse.dropWhile isSpacePy with
  | nil => rw [hd] at h; simp at h
  | cons a as =>
    rw [hd] at h
    simp at h
    have := dropWhile_head_not hd
    rwa [h] at this

theorem stripChars_of_clean {l : PyStr}
    (hh : ∀ c rest, l = c :: rest → isSpacePy c = false)
    (hl : ∀ c, l.getLast? = some c → isSpacePy c = false) :
    stripChars l = l := by
  unfold stripChars
  rw [dropWhile_eq_self_of_head hh]
  have h2 : l.reverse.dropWhile isSpacePy = l.reverse := by
    apply dropWhile_eq_self_of_head
    intro c rest hrev
    apply hl
    rw [← List.head?_reverse]
    simp [hrev]
  rw [h2, List.reverse_reverse]

theorem stripChars_idem (s : PyStr) : stripChars (stripChars s) = stripChars s := by
  apply stripChars_of_clean
  · intro c rest h; exact stripChars_head_not h
  · intro c h; exact stripChars_getLast_not h

/-! ### Utility lemmas: decimal formatting (`pad3`) -/

theorem digitChar_toNat {d : Nat} (h : d < 10) : (digitChar d).toNat = 48 + d := by
  interval_cases d <;> rfl

theorem digitChar_digit {d : Nat} (h : d < 10) : isDigitPy (digitChar d) = true := by
  interval_cases d <;> rfl

theorem parseNat_append_one (xs : PyStr) (c : Char) :
    parseNat (xs ++ [c]) = 10 * parseNat xs + (c.toNat - 48) := by
  unfold parseNat
  rw [List.foldl_append]
  rfl

theorem natCharsAux_parse :
    ∀ (fuel n : Nat), n < fuel → parseNat (natCharsAux fuel n) = n := by
  intro fuel
  induction fuel with
  | zero => intro n h; omega
  | succ fuel ih =>
    intro n h
    by_cases h10 : n < 10
    · simp only [natCharsAux, if_pos h10]
      show parseNat ([] ++ [digitChar n]) = n
      rw [parseNat_append_one, digitChar_toNat h10]
      simp [parseNat]
    · simp only [natCharsAux, if_neg h10]
      rw [parseNat_append_one]
      have hdiv : n / 10 < n := Nat.div_lt_self (by omega) (by omega)
      have : parseNat (natCharsAux fuel (n / 10)) = n / 10 := ih (n / 10) (by omega)
      rw [this, digitChar_toNat (Nat.mod_lt n (by omega))]
      omega

theorem parseNat_natChars (n : Nat) : parseNat (natChars n) = n :=
  natCharsAux_parse (n + 1) n (Nat.lt_succ_self n)

theorem parseNat_replicate_zero (k : Nat) (s : PyStr) :
    parseNat (List.replicate k '0' ++ s) = parseNat s := by
  induction k with
  | zero => rfl
  | succ k ih =>
    have : List.replicate (k + 1) '0' ++ s = '0' :: (List.replicate k '0' ++ s) := by
      simp [List.replicate_succ]
    rw [this]
    show List.foldl (fun a c => 10 * a + (c.toNat - 48)) 0
        ('0' :: (List.replicate k '0' ++ s)) = parseNat s
    simp only [List.foldl_cons]
    have h0 : (10 * 0 + ('0'.toNat - 48)) = 0 := by rfl
    rw [h0]
    exact ih

theorem parseNat_pad3 (n : Nat) : parseNat (pad3 n) = n := by
  unfold pad3
  rw [parseNat_replicate_zero, parseNat_natChars]

theorem pad3_inj {a b : Nat} (h : pad3 a = pad3 b) : a = b := by
  have := congrArg parseNat h
  rwa [parseNat_pad3, parseNat_pad3] at this

theorem natCharsAux_digits :
    ∀ (fuel n : Nat), ∀ c ∈ natCharsAux fuel n, isDigitPy c = true := by
  intro fuel
  induction fuel with
  | zero => intro n c hc; simp [natCharsAux] at hc
  | succ fuel ih =>
    intro n c hc
    by_cases h10 : n < 10
    · simp only [natCharsAux, if_pos h10] at hc
      simp at hc
      rw [hc]
      exact digitChar_digit h10
    · simp only [natCharsAux, if_neg h10] at hc
      rcases List.mem_append.mp hc with h1 | h2
      · exact ih (n / 10) c h1
      · simp at h2
        rw [h2]
        exact digitChar_digit (Nat.mod_lt n (by omega))

theorem pad3_digits (n : Nat) : ∀ c ∈ pad3 n, isDigitPy c = true := by
  intro c hc
  unfold pad3 at hc
  rcases List.mem_append.mp hc with h1 | h2
  · have := List.eq_of_mem_replicate h1
    rw [this]; rfl
  · exact natCharsAux_digits (n + 1) n c h2

/-! ### Lemmas about the merging scan of `clean_document` -/

theorem scanNodes_flatten (brk : Option PyStr → Node → Node → Bool) :
    ∀ (ns : List Node) (groups : List (List Node)) (cur : List Node)
      (lastN : Option Node) (ty : Option PyStr),
      (scanNodes brk groups cur lastN ty ns).flatten = groups.flatten ++ cur ++ ns := by
  intro ns
  induction ns with
  | nil =>
    intro groups cur lastN ty
    by_cases hc : cur = []
    · simp [scanNodes, hc]
    · simp [scanNodes, hc]
  | cons n rest ih =>
    intro groups cur lastN ty
    cases lastN with
    | none =>
      simp only [scanNodes]
      rw [ih]
      simp
    | some last =>
      by_cases hb : brk ty last n = true
      · simp only [scanNodes, hb, if_true]
        rw [ih]
        simp
      · simp only [scanNodes, hb, Bool.false_eq_true, if_false]
        rw [ih]
        simp

theorem scanNodes_ne_nil (brk : Option PyStr → Node → Node → Bool) :
    ∀ (ns : List Node) (groups : List (List Node)) (cur : List Node)
      (lastN : Option Node) (ty : Option PyStr),
      (∀ g ∈ groups, g ≠ []) → (lastN ≠ none → cur ≠ []) →
      ∀ g ∈ scanNodes brk groups cur lastN ty ns, g ≠ [] := by
  intro ns
  induction ns with
  | nil =>
    intro groups cur lastN ty hg hc g hmem
    by_cases hcur : cur = []
    · simp [scanNodes, hcur] at hmem
      exact hg g hmem
    · simp [scanNodes, hcur] at hmem
      rcases hmem with h | h
      · exact hg g h
      · rw [h]; exact hcur
  | cons n rest ih =>
    intro groups cur lastN ty hg hc g hmem
    cases lastN with
    | none =>
      simp only [scanNodes] at hmem
      exact ih groups (cur ++ [n]) (some n) ty hg (by simp) g hmem
    | some last =>
      by_cases hb : brk ty last n = true
      · simp only [scanNodes, hb, if_true] at hmem
        refine ih (groups ++ [cur]) [n] (some n) (some unknownStr) ?_ (by simp) g hmem
        intro g' hg'
        rcases List.mem_append.mp hg' with h | h
        · exact hg g' h
        · simp at h
          rw [h]
          exact hc (by simp)
      · simp only [scanNodes, hb, Bool.false_eq_true, if_false] at hmem
        exact ih groups (cur ++ [n]) (some n) ty hg (by simp) g hmem

theorem mergeParts_flatten (L : List (List Node)) :
    (L.map mergeParts).flatten = mergeParts L.flatten := by
  induction L with
  | nil => rfl
  | cons g rest ih =>
    simp only [List.map_cons, List.flatten_cons, List.flatten_cons]
    rw [ih]
    unfold mergeParts
    rw [List.filterMap_append]

theorem mergeChunk_content (g : List Node) :
    (mergeChunk g).content = joinSpace (mergeParts g) := by
  cases g with
  | nil => rfl
  | cons h t => rfl

/-- C1: for every configuration and every filtered node stream, the member
groups of the emitted chunks partition the stream in order (no node dropped,
duplicated or reordered), the normalized per-node text fragments of the
chunks concatenate to the fragments of the stream, and each chunk's content
is exactly the space-join of its members' normalized fragments. -/
theorem clean_chunks_reproduce_stream (cfg : CleanCfg) (nodes : List Node) :
    (cleanGroups cfg nodes).flatten = nodes ∧
    ((cleanGroups cfg nodes).map mergeParts).flatten = mergeParts nodes ∧
    ∀ g : List Node, (mergeChunk g).content = joinSpace (mergeParts g) := by
  have hpart : (cleanGroups cfg nodes).flatten = nodes := by
    unfold cleanGroups
    rw [scanNodes_flatten]
    simp
  refine ⟨hpart, ?_, fun g => mergeChunk_content g⟩
  rw [mergeParts_flatten, hpart]

/-! ### Lemmas about `SectionAggregator` -/

theorem finalizeSection_ids (hc : Option Chunk) (cs : List Chunk) :
    sectionChunkIds (finalizeSection hc cs) =
      (match hc with | some h => [h.id] | none => []) ++ cs.map Chunk.id := by
  cases hc <;> rfl

theorem aggAux_ids :
    ∀ (chunks : List Chunk) (sections : List Section)
      (cur : Option (Option Chunk × List Chunk)),
      ((aggAux sections cur chunks).map sectionChunkIds).flatten =
        (sections.map sectionChunkIds).flatten ++ accIds cur ++ chunks.map Chunk.id := by
  intro chunks
  induction chunks with
  | nil =>
    intro sections cur
    cases cur with
    | none => simp [aggAux, accIds]
    | some hcs =>
      obtain ⟨hc, cs⟩ := hcs
      simp [aggAux, accIds, finalizeSection_ids]
  | cons c rest ih =>
    intro sections cur
    by_cases hty : c.ctype = headingStr
    · cases cur with
      | none =>
        simp only [aggAux, if_pos hty]
        rw [ih]
        simp [accIds]
      | some hcs =>
        obtain ⟨hc, cs⟩ := hcs
        simp only [aggAux, if_pos hty]
        rw [ih]
        simp [accIds, finalizeSection_ids]
    · cases cur with
      | none =>
        simp only [aggAux, if_neg hty]
        rw [ih]
        simp [accIds]
      | some hcs =>
        obtain ⟨hc, cs⟩ := hcs
        simp only [aggAux, if_neg hty]
        rw [ih]
        cases hc <;> simp [accIds]
  
theorem aggregateSections_ids (chunks : List Chunk) :
    ((aggregateSections chunks).map sectionChunkIds).flatten = chunks.map Chunk.id := by
  unfold aggregateSections
  rw [aggAux_ids]
  simp [accIds]

/-- C2: when the chunks carry sequential 1-based ids, the ids referenced by
the emitted sections (each section's heading chunk id followed by its content
chunk ids, sections in order) are exactly `1, …, n`: every chunk is assigned
to exactly one section, with no gaps or repeats. -/
theorem sections_partition_ids (chunks : List Chunk)
    (h : chunks.map Chunk.id = List.range' 1 chunks.length) :
    ((aggregateSections chunks).map sectionChunkIds).flatten =
        List.range' 1 chunks.length ∧
      (List.range' 1 chunks.length).Nodup := by
  constructor
  · rw [aggregateSections_ids, h]
  · exact List.nodup_range' 1 chunks.length

/-- Concrete instance of C2: a heading chunk followed by a paragraph chunk,
with ids `1, 2`. -/
theorem sections_partition_ids_witness :
    ((aggregateSections
          [{ ctype := headingStr, id := 1 }, { ctype := paragraphStr, id := 2 }]).map
        sectionChunkIds).flatten = List.range' 1 2 := by
  have h := sections_partition_ids
    [{ ctype := headingStr, id := 1 }, { ctype := paragraphStr, id := 2 }]
    (by decide)
  simpa using h.1

theorem aggAux_heading_ids (S : List Nat) :
    ∀ (chunks : List Chunk) (sections : List Section)
      (cur : Option (Option Chunk × List Chunk)),
      (∀ sec ∈ sections, ∀ i, sec.heading_chunk_id = some i → i ∈ S) →
      (∀ hc cs, cur = some (hc, cs) → ∀ h, hc = some h → h.id ∈ S) →
      (∀ c ∈ chunks, c.ctype = headingStr → c.id ∈ S) →
      ∀ sec ∈ aggAux sections cur chunks, ∀ i,
        sec.heading_chunk_id = some i → i ∈ S := by
  intro chunks
  induction chunks with
  | nil =>
    intro sections cur hsec hcur _ sec hmem i hid
    cases cur with
    | none => exact hsec sec hmem i hid
    | some hcs =>
      obtain ⟨hc, cs⟩ := hcs
      simp only [aggAux] at hmem
      rcases List.mem_append.mp hmem with h | h
      · exact hsec sec h i hid
      · simp at h
        rw [h] at hid
        unfold finalizeSection at hid
        simp at hid
        obtain ⟨hchunk, hhc, hi⟩ := hid
        have := hcur hc cs rfl hchunk hhc
        rwa [hi] at this
  | cons c rest ih =>
    intro sections cur hsec hcur hchunks sec hmem i hid
    have hrest : ∀ c' ∈ rest, c'.ctype = headingStr → c'.id ∈ S := fun c' h =>
      hchunks c' (List.mem_cons_of_mem c h)
    by_cases hty : c.ctype = headingStr
    · have hcS : c.id ∈ S := hchunks c (List.mem_cons_self c rest) hty
      cases cur with
      | none =>
        simp only [aggAux, if_pos hty] at hmem
        refine ih sections (some (some c, [])) hsec ?_ hrest sec hmem i hid
        intro hc cs hcur' h hh
        cases hcur'
        cases hh
        exact hcS
      | some hcs =>
        obtain ⟨hc, cs⟩ := hcs
        simp only [aggAux, if_pos hty] at hmem
        refine ih (sections ++ [finalizeSection hc cs]) (some (some c, [])) ?_ ?_
          hrest sec hmem i hid
        · intro sec' hmem' i' hid'
          rcases List.mem_append.mp hmem' with h | h
          · exact hsec sec' h i' hid'
          · simp at h
            rw [h] at hid'
            unfold finalizeSection at hid'
            simp at hid'
            obtain ⟨hchunk, hhc, hi⟩ := hid'
            have := hcur hc cs rfl hchunk hhc
            rwa [hi] at this
        · intro hc' cs' hcur' h hh
          cases hcur'
          cases hh
          exact hcS
    · cases cur with
      | none =>
        simp only [aggAux, if_neg hty] at hmem
        refine ih sections (some (none, [c])) hsec ?_ hrest sec hmem i hid
        intro hc cs hcur' h hh
        cases hcur'
        cases hh
      | some hcs =>
        obtain ⟨hc, cs⟩ := hcs
        simp only [aggAux, if_neg hty] at hmem
        refine ih sections (some (hc, cs ++ [c])) hsec ?_ hrest sec hmem i hid
        intro hc' cs' hcur' h hh
        cases hcur'
        exact hcur hc (cs) rfl h hh

/-- C10: every chunk group emitted by the merging scan is non-empty; a merged
chunk is typed `"heading"` exactly when the `content_type` of its first
member node is `"heading"` (chunks whose break was caused by the other
heading heuristics are typed `"paragraph"`, or `"list_item"` when the first
node carries a list prefix); and every section's heading chunk id comes from
a `"heading"`-typed chunk, so non-`"heading"` chunks never anchor a section. -/
theorem chunk_type_from_first_node (cfg : CleanCfg) (nodes : List Node) :
    (∀ g ∈ cleanGroups cfg nodes, g ≠ []) ∧
    (∀ (h : Node) (t : List Node),
      ((mergeChunk (h :: t)).ctype = headingStr ↔ h.content_type = some headingStr) ∧
      ((mergeChunk (h :: t)).ctype ≠ headingStr →
        (mergeChunk (h :: t)).ctype =
          if (isListItem h).isSome then listItemStr else paragraphStr)) ∧
    (∀ (chunks : List Chunk) (sec : Section) (i : Nat),
      sec ∈ aggregateSections chunks → sec.heading_chunk_id = some i →
      i ∈ ((chunks.filter fun c => decide (c.ctype = headingStr)).map Chunk.id)) := by
  refine ⟨?_, ?_, ?_⟩
  · exact fun g hg =>
      scanNodes_ne_nil _ nodes [] [] none none (by simp) (by simp) g hg
  · intro h t
    constructor
    · constructor
      · intro hty
        by_cases hct : h.content_type = some headingStr
        · exact hct
        · exfalso
          simp only [mergeChunk, if_neg hct] at hty
          by_cases hli : (isListItem h).isSome
          · rw [if_pos hli] at hty
            exact absurd hty (by decide)
          · rw [if_neg hli] at hty
            exact absurd hty (by decide)
      · intro hct
        simp only [mergeChunk, if_pos hct]
    · intro hne
      by_cases hct : h.content_type = some headingStr
      · exact absurd (by simp only [mergeChunk, if_pos hct]) hne
      · simp only [mergeChunk, if_neg hct]
  · intro chunks sec i hmem hid
    refine aggAux_heading_ids _ chunks [] none (by simp) (by simp) ?_ sec hmem i hid
    intro c hc hty
    exact List.mem_map.mpr ⟨c, List.mem_filter.mpr ⟨hc, by simp [hty]⟩, rfl⟩

/-! ### Lemmas about `_load_page_nodes` filtering -/

theorem mem_insertByTopLeft {a x : Node} :
    ∀ {l : List Node}, a ∈ insertByTopLeft x l ↔ a = x ∨ a ∈ l := by
  intro l
  induction l with
  | nil => simp [insertByTopLeft]
  | cons y ys ih =>
    by_cases h : nodeLt y x = true
    · simp only [insertByTopLeft, if_pos h, List.mem_cons, ih]
      tauto
    · simp only [insertByTopLeft, if_neg h, List.mem_cons]

theorem mem_sortNodesByTopLeft {a : Node} :
    ∀ {l : List Node}, a ∈ sortNodesByTopLeft l ↔ a ∈ l := by
  intro l
  induction l with
  | nil => simp [sortNodesByTopLeft]
  | cons x xs ih =>
    show a ∈ insertByTopLeft x (sortNodesByTopLeft xs) ↔ _
    rw [mem_insertByTopLeft, ih]
    simp [List.mem_cons]

theorem mem_loadPageNodes {cfg : CleanCfg} {n : Node} {p : List Node}
    (h : n ∈ loadPageNodes cfg p) : dropReason cfg n = none := by
  unfold loadPageNodes at h
  rw [mem_sortNodesByTopLeft] at h
  have := (List.mem_filter.mp h).2
  exact Option.isNone_iff_eq_none.mp this

/-- C8: a node whose confidence value is strictly below the threshold never
survives loading (hence appears in no chunk's member group), and a node at or
above the threshold is never dropped by the low-confidence rule (the reason
attached to it, if any, is a different one). -/
theorem low_confidence_node_dropped (cfg : CleanCfg) (pages : List (List Node))
    (n : Node) :
    (confVal n < cfg.confidence_threshold →
      n ∉ allDocNodes cfg pages ∧
        ∀ g ∈ cleanGroups cfg (allDocNodes cfg pages), n ∉ g) ∧
    (cfg.confidence_threshold ≤ confVal n →
      dropReason cfg n ≠ some DropReason.lowConf) := by
  constructor
  · intro hconf
    have hdrop : dropReason cfg n ≠ none := by
      unfold dropReason
      by_cases hr : n.content_type = some pageRawTextStr
      · simp [hr]
      · simp [hr, hconf]
    have hnotin : n ∉ allDocNodes cfg pages := by
      intro hmem
      unfold allDocNodes at hmem
      obtain ⟨l, hl, hnl⟩ := List.mem_flatten.mp hmem
      obtain ⟨p, _, hp⟩ := List.mem_map.mp hl
      rw [← hp] at hnl
      exact hdrop (mem_loadPageNodes hnl)
    refine ⟨hnotin, ?_⟩
    intro g hg hng
    apply hnotin
    have hflat := (clean_chunks_reproduce_stream cfg (allDocNodes cfg pages)).1
    rw [← hflat]
    exact List.mem_flatten.mpr ⟨g, hg, hng⟩
  · intro hconf
    unfold dropReason
    by_cases hr : n.content_type = some pageRawTextStr
    · simp [hr]
    · have hlt : ¬ confVal n < cfg.confidence_threshold := not_lt.mpr hconf
      by_cases hf : isFooter (stripChars n.content) = true
      · simp [hr, hlt, hf]
      · simp [hr, hlt, hf]

/-- Concrete instance of C8: with the default threshold `0.1`, a node with
confidence `0.05` survives in no chunk group, and one with confidence `0.9`
is not dropped by the confidence rule. -/
theorem low_confidence_node_dropped_witness :
    ({ content := ['x'], ocr_confidence := some (mkRat 1 20) } : Node) ∉
        allDocNodes { confidence_threshold := mkRat 1 10 }
          [[{ content := ['x'], ocr_confidence := some (mkRat 1 20) }]] ∧
      dropReason { confidence_threshold := mkRat 1 10 }
          { content := ['x'], ocr_confidence := some (mkRat 9 10) } ≠
        some DropReason.lowConf := by
  constructor
  · exact ((low_confidence_node_dropped { confidence_threshold := mkRat 1 10 }
      [[{ content := ['x'], ocr_confidence := some (mkRat 1 20) }]]
      { content := ['x'], ocr_confidence := some (mkRat 1 20) }).1 (by decide)).1
  · exact (low_confidence_node_dropped { confidence_threshold := mkRat 1 10 } []
      { content := ['x'], ocr_confidence := some (mkRat 9 10) }).2 (by decide)

/-- C9 counterexample: a node whose `bbox` field is missing is recovered with
height `0`, not the `10`-unit default stated by the claim (the `10` fallback
only applies when the bbox is present but not an object). -/
theorem missing_bbox_height_counterexample :
    bboxHeight ({ content := ['x'] } : Node) = 0 ∧ (0 : ℚ) ≠ 10 := by
  constructor
  · rfl
  · decide

/-- C9 (amended): a missing confidence is recovered as `1.0` and (for any
threshold at most `1`) never triggers the low-confidence drop; a missing
bbox is recovered with zero coordinates and zero height, while the `10`-unit
height fallback applies exactly to a bbox that is present but not an object;
and the drop rules never inspect the bbox, so a node is never dropped for a
missing bbox. -/
theorem missing_fields_recovered (cfg : CleanCfg) (n : Node) :
    (n.ocr_confidence = none → confVal n = 1) ∧
    (n.bbox = BBoxF.missing →
      bboxTop n = 0 ∧ bboxLeft n = 0 ∧ bboxHeight n = 0) ∧
    (n.bbox = BBoxF.nonDict →
      bboxTop n = 0 ∧ bboxLeft n = 0 ∧ bboxHeight n = 10) ∧
    (n.ocr_confidence = none → cfg.confidence_threshold ≤ 1 →
      dropReason cfg n ≠ some DropReason.lowConf) ∧
    (∀ b : BBoxF, dropReason cfg { n with bbox := b } = dropReason cfg n) := by
  refine ⟨?_, ?_, ?_, ?_, ?_⟩
  · intro h
    unfold confVal
    rw [h]
    rfl
  · intro h
    unfold bboxTop bboxLeft bboxHeight
    rw [h]
    exact ⟨rfl, rfl, rfl⟩
  · intro h
    unfold bboxTop bboxLeft bboxHeight
    rw [h]
    exact ⟨rfl, rfl, rfl⟩
  · intro hconf hth
    have h1 : confVal n = 1 := by unfold confVal; rw [hconf]; rfl
    unfold dropReason
    by_cases hr : n.content_type = some pageRawTextStr
    · simp [hr]
    · have hlt : ¬ confVal n < cfg.confidence_threshold := by
        rw [h1]
        exact not_lt.mpr hth
      by_cases hf : isFooter (stripChars n.content) = true
      · simp [hr, hlt, hf]
      · simp [hr, hlt, hf]
  · intro b
    unfold dropReason
    rfl

/-- Concrete instance of the amended C9 at a node missing both fields, with
threshold `0.1`. -/
theorem missing_fields_recovered_witness :
    confVal ({ content := ['x'] } : Node) = 1 ∧
      bboxHeight ({ content := ['x'] } : Node) = 0 ∧
      dropReason { confidence_threshold := mkRat 1 10 }
          ({ content := ['x'] } : Node) ≠ some DropReason.lowConf := by
  have h := missing_fields_recovered { confidence_threshold := mkRat 1 10 }
    { content := ['x'] }
  exact ⟨h.1 rfl, (h.2.1 rfl).2.2, h.2.2.2.1 rfl (by decide)⟩

/-- Concrete instance of C10: a single plain node forms one non-empty group;
its merged chunk is typed by its first node's `content_type`; and in a
one-heading-chunk list, the emitted section's heading id `1` comes from the
`"heading"`-typed chunk. -/
theorem chunk_type_from_first_node_witness :
    (([({ content := ['x'] } : Node)] ∈
        cleanGroups {} [({ content := ['x'] } : Node)]) ∧
      [({ content := ['x'] } : Node)] ≠ []) ∧
      ((mergeChunk [({ content := ['x'] } : Node)]).ctype = headingStr ↔
        ({ content := ['x'] } : Node).content_type = some headingStr) ∧
      (finalizeSection (some { ctype := headingStr, id := 1 }) [] ∈
          aggregateSections [{ ctype := headingStr, id := 1 }] ∧
        1 ∈ (([({ ctype := headingStr, id := 1 } : Chunk)].filter
            fun c => decide (c.ctype = headingStr)).map Chunk.id)) := by
  have h := chunk_type_from_first_node {} [{ content := ['x'] }]
  refine ⟨⟨by decide, h.1 [{ content := ['x'] }] (by decide)⟩,
    (h.2.1 { content := ['x'] } []).1, by decide,
    h.2.2 [{ ctype := headingStr, id := 1 }]
      (finalizeSection (some { ctype := headingStr, id := 1 }) []) 1
      (by decide) (by decide)⟩

/-! ### PathEncoder claims -/

/-- C6: with no reset between the calls, the parent of the path built from
`"1.2.3"` at level 3 is exactly the path built next from `"1.2"` at level 2
(`getParentPath "001.002.003" = "001.002"`), from any starting state. -/
theorem parent_of_built_path (st : EncState) :
    getParentPath (buildPath numStr123 (some 3) st).1 =
      some (buildPath numStr12 (some 2) ((buildPath numStr123 (some 3) st).2)).1 := by
  rfl

/-- C3 counterexample: on `"001.002.blk.003"` the code strips the trailing
`".blk.003"` and then also drops the final remaining segment, returning
`"001"` — not the claimed `"001.002"`. -/
theorem get_parent_path_counterexample :
    getParentPath pathBlk123 ≠ some path12 ∧ getParentPath pathBlk123 = some path1 := by
  constructor
  · decide
  · decide

theorem splitOnChar_cons (sep : Char) (c : Char) (s : PyStr) :
    splitOnChar sep (c :: s) =
      match splitOnChar sep s with
      | [] => [[c]]
      | a :: as => if c = sep then [] :: a :: as else (c :: a) :: as := rfl

theorem splitOnChar_ne_nil (sep : Char) : ∀ (s : PyStr), splitOnChar sep s ≠ [] := by
  intro s
  cases s with
  | nil => simp [splitOnChar]
  | cons c rest =>
    rw [splitOnChar_cons]
    cases h : splitOnChar sep rest with
    | nil => simp
    | cons a as =>
      by_cases hc : c = sep
      · simp [hc]
      · simp [hc]

theorem splitOnChar_no_sep {sep : Char} :
    ∀ {s : PyStr}, (∀ c ∈ s, c ≠ sep) → splitOnChar sep s = [s] := by
  intro s
  induction s with
  | nil => intro _; rfl
  | cons c rest ih =>
    intro h
    rw [splitOnChar_cons, ih fun x hx => h x (List.mem_cons_of_mem c hx)]
    simp [h c (List.mem_cons_self c rest)]

theorem splitOnChar_append_no_sep {sep : Char} :
    ∀ {xs : PyStr}, (∀ c ∈ xs, c ≠ sep) →
      ∀ {l : PyStr} {a : PyStr} {as : List PyStr}, splitOnChar sep l = a :: as →
        splitOnChar sep (xs ++ l) = (xs ++ a) :: as := by
  intro xs
  induction xs with
  | nil => intro _ l a as h; simpa using h
  | cons x xs' ih =>
    intro h l a as hl
    have hx : x ≠ sep := h x (List.mem_cons_self x xs')
    have := ih (fun c hc => h c (List.mem_cons_of_mem x hc)) hl
    show splitOnChar sep (x :: (xs' ++ l)) = ((x :: xs') ++ a) :: as
    rw [splitOnChar_cons, this]
    simp [hx]

theorem splitOnChar_sep_cons (sep : Char) (l : PyStr) :
    splitOnChar sep (sep :: l) = [] :: splitOnChar sep l := by
  rw [splitOnChar_cons]
  cases h : splitOnChar sep l with
  | nil => exact absurd h (splitOnChar_ne_nil sep l)
  | cons a as => simp

theorem joinDot_cons_cons (a b : PyStr) (t : List PyStr) :
    joinDot (a :: b :: t) = a ++ '.' :: joinDot (b :: t) := rfl

theorem splitOnChar_joinDot :
    ∀ {segs : List PyStr}, segs ≠ [] →
      (∀ s ∈ segs, ∀ ch ∈ s, ch ≠ '.') →
      splitOnChar '.' (joinDot segs) = segs := by
  intro segs
  induction segs with
  | nil => intro h; exact absurd rfl h
  | cons a t ih =>
    intro _ hdot
    cases t with
    | nil =>
      have : joinDot [a] = a := by
        show List.intercalate ['.'] [a] = a
        rw [show List.intercalate ['.'] [a] = a ++ [] from rfl, List.append_nil]
      rw [this]
      exact splitOnChar_no_sep (hdot a (List.mem_cons_self a []))
    | cons b t' =>
      rw [joinDot_cons_cons]
      have hrest : splitOnChar '.' ('.' :: joinDot (b :: t')) =
          [] :: (b :: t') := by
        rw [splitOnChar_sep_cons]
        rw [ih (by simp) fun s hs => hdot s (List.mem_cons_of_mem a hs)]
      have := splitOnChar_append_no_sep
        (hdot a (List.mem_cons_self a (b :: t'))) hrest
      rw [this]
      simp

theorem lastOccAux_eq_some {pat s : PyStr} {m : Nat} :
    ∀ (N : Nat), m ≤ N → startsWith pat (s.drop m) = true →
      (∀ j, m < j → startsWith pat (s.drop j) = false) →
      lastOccAux pat s N = some m := by
  intro N
  induction N with
  | zero =>
    intro hmN hm _
    have : m = 0 := Nat.le_zero.mp hmN
    subst this
    simp only [lastOccAux]
    rw [List.drop_zero] at hm
    simp [hm]
  | succ N ih =>
    intro hmN hm hmax
    by_cases heq : m = N + 1
    · subst heq
      simp only [lastOccAux]
      rw [hm]
      simp
    · have hlt : m ≤ N := by omega
      simp only [lastOccAux]
      rw [hmax (N + 1) (by omega)]
      simp only [Bool.false_eq_true, if_false]
      exact ih hlt hm hmax

theorem blkSep_not_prefix_of_digits {D : PyStr}
    (hD : ∀ c ∈ D, isDigitPy c = true) :
    ∀ k, 1 ≤ k → startsWith blkSep ((blkSep ++ D).drop k) = false := by
  intro k hk
  rw [startsWith]
  rw [decide_eq_false_iff_not]
  have hform : blkSep ++ D = '.' :: 'b' :: 'l' :: 'k' :: '.' :: D := rfl
  rw [hform]
  match k, hk with
  | 1, _ =>
    intro h
    rw [List.drop_succ_cons, List.drop_zero] at h
    rw [blkSep] at h
    rw [List.cons_prefix_cons] at h
    exact absurd h.1 (by decide)
  | 2, _ =>
    intro h
    rw [show List.drop 2 ('.' :: 'b' :: 'l' :: 'k' :: '.' :: D) =
      'l' :: 'k' :: '.' :: D from rfl] at h
    rw [blkSep, List.cons_prefix_cons] at h
    exact absurd h.1 (by decide)
  | 3, _ =>
    intro h
    rw [show List.drop 3 ('.' :: 'b' :: 'l' :: 'k' :: '.' :: D) =
      'k' :: '.' :: D from rfl] at h
    rw [blkSep, List.cons_prefix_cons] at h
    exact absurd h.1 (by decide)
  | 4, _ =>
    intro h
    rw [show List.drop 4 ('.' :: 'b' :: 'l' :: 'k' :: '.' :: D) =
      '.' :: D from rfl] at h
    rw [blkSep, List.cons_prefix_cons] at h
    cases D with
    | nil => rw [List.prefix_nil] at h; exact absurd h.2 (by decide)
    | cons d ds =>
      rw [List.cons_prefix_cons] at h
      have := hD d (List.mem_cons_self d ds)
      rw [← h.2.1] at this
      exact absurd this (by decide)
  | (n + 5), _ =>
    intro h
    rw [show List.drop (n + 5) ('.' :: 'b' :: 'l' :: 'k' :: '.' :: D) =
      List.drop n D from rfl] at h
    cases hdrop : List.drop n D with
    | nil =>
      rw [hdrop, List.prefix_nil] at h
      exact absurd h (by decide)
    | cons d ds =>
      rw [hdrop, blkSep, List.cons_prefix_cons] at h
      have hmem : d ∈ D := List.mem_of_mem_drop (by rw [hdrop]; exact List.mem_cons_self d ds)
      have := hD d hmem
      rw [← h.1] at this
      exact absurd this (by decide)

theorem lastOcc_append_blk (A D : PyStr) (hD : ∀ c ∈ D, isDigitPy c = true) :
    lastOcc blkSep (A ++ (blkSep ++ D)) = some A.length := by
  unfold lastOcc
  apply lastOccAux_eq_some
  · simp
  · rw [List.drop_left, startsWith, decide_eq_true_iff]
    exact List.prefix_append blkSep D
  · intro j hj
    have : j = A.length + (j - A.length) := by omega
    rw [this, List.drop_append]
    exact blkSep_not_prefix_of_digits hD (j - A.length) (by omega)

/-- C3 (amended): on a path of the auto-block form
`<seg₁>.….<segₖ>.blk.NNN` (dot-free segments, digit counter),
`get_parent_path` strips the trailing `".blk.NNN"` and then also drops the
final remaining dot-segment: it returns the join of the first `k - 1`
segments, and `none` when only one segment remains; only for a path without
`".blk."` does it drop just the final segment. -/
theorem get_parent_of_auto_path (segs : List PyStr) (c : Nat) (hne : segs ≠ [])
    (hdot : ∀ s ∈ segs, ∀ ch ∈ s, ch ≠ '.') :
    getParentPath (joinDot segs ++ blkSep ++ pad3 c) =
      if segs.length ≤ 1 then none else some (joinDot segs.dropLast) := by
  have hassoc : joinDot segs ++ blkSep ++ pad3 c =
      joinDot segs ++ (blkSep ++ pad3 c) := List.append_assoc _ _ _
  have hnil : joinDot segs ++ blkSep ++ pad3 c ≠ [] := by
    rw [hassoc]
    intro h
    rcases List.append_eq_nil.mp h with ⟨_, h2⟩
    rcases List.append_eq_nil.mp h2 with ⟨h3, _⟩
    exact absurd h3 (by decide)
  have hocc : lastOcc blkSep (joinDot segs ++ blkSep ++ pad3 c) =
      some (joinDot segs).length := by
    rw [hassoc]
    exact lastOcc_append_blk _ _ (pad3_digits c)
  have hsub : containsSub blkSep (joinDot segs ++ blkSep ++ pad3 c) = true := by
    rw [containsSub, decide_eq_true_iff]
    exact ⟨joinDot segs, pad3 c, rfl⟩
  have hbefore : beforeLastOcc blkSep (joinDot segs ++ blkSep ++ pad3 c) =
      joinDot segs := by
    unfold beforeLastOcc
    rw [hocc, hassoc]
    exact List.take_left _ _
  unfold getParentPath
  rw [if_neg hnil]
  simp only [hsub, if_true, hbefore, splitOnChar_joinDot hne hdot]

/-- Concrete instance of the amended C3: the parent of
`"001.002.blk.003"` is `"001"`. -/
theorem get_parent_of_auto_path_witness :
    getParentPath (joinDot [['0', '0', '1'], ['0', '0', '2']] ++ blkSep ++ pad3 3) =
      some (joinDot [['0', '0', '1']]) := by
  have h := get_parent_of_auto_path [['0', '0', '1'], ['0', '0', '2']] 3
    (by decide) (by decide)
  simpa using h

/-- C5 counterexample: two distinct `build_path` calls with the same
numbering return the same path string (`"001.002"` twice), so paths are not
unique across a run. -/
theorem build_path_duplicate_counterexample :
    (runOps {} [POp.build numStr12 (some 2), POp.build numStr12 (some 2)]).1 =
        [path12, path12] ∧
      ¬ ((runOps {}
          [POp.build numStr12 (some 2), POp.build numStr12 (some 2)]).1).Nodup := by
  constructor
  · decide
  · decide

theorem buildAutoPath_eq (st : EncState) :
    buildAutoPath st =
      (autoPre st.stack ++ pad3 (st.block_counter + 1),
        { st with block_counter := st.block_counter + 1 }) := by
  unfold buildAutoPath autoPre
  by_cases h : st.stack = []
  · simp [h]
  · simp [h]

theorem runOps_replicate_auto (k : Nat) :
    ∀ st : EncState,
      (runOps st (List.replicate k POp.auto)).1 =
        (List.range k).map fun i =>
          autoPre st.stack ++ pad3 (st.block_counter + i + 1) := by
  induction k with
  | zero => intro st; rfl
  | succ k ih =>
    intro st
    rw [List.replicate_succ]
    show (let (e, st') := stepOp st POp.auto
          let (ps, stF) := runOps st' (List.replicate k POp.auto)
          (e.toList ++ ps, stF)).1 = _
    rw [show stepOp st POp.auto =
      (some (autoPre st.stack ++ pad3 (st.block_counter + 1)),
        { st with block_counter := st.block_counter + 1 }) by
        unfold stepOp; rw [buildAutoPath_eq]]
    simp only [Option.toList_some]
    rw [ih { st with block_counter := st.block_counter + 1 }]
    rw [List.range_succ_eq_map, List.map_cons, List.map_map]
    simp only [List.singleton_append]
    congr 1
    apply List.map_congr_left
    intro i _
    have : st.block_counter + 1 + i + 1 = st.block_counter + (i + 1) + 1 := by omega
    simp [Function.comp, this]

/-- C5 (amended): auto-block paths are unique as long as neither a section
reset nor a `build_path` intervenes: any run of consecutive
`_build_auto_path` emissions from one state yields pairwise distinct paths
(the block counter strictly increases under the fixed stack prefix).
`build_path` emissions carry no such guarantee (see the counterexample). -/
theorem auto_block_paths_distinct (st : EncState) (k : Nat) :
    ((runOps st (List.replicate k POp.auto)).1).Nodup := by
  rw [runOps_replicate_auto]
  apply List.Nodup.map
  · intro i j h
    have h2 := List.append_cancel_left h
    have h3 := pad3_inj h2
    omega
  · exact List.nodup_range k

/-! ### Segmenter claims -/

/-- C4 counterexample: with `max_length = 5`, the oversize atomic sentence
`"abcdefg,hi"` is force-split into `["abcdefg,", "hi"]`; the 8-character
part exceeds `max_length` even though it contains a secondary punctuation
mark, because the code cuts at the first mark at or after the limit, not at
the last mark before it. -/
theorem split_long_segment_counterexample :
    ¬ ∀ s ∈ splitLongSegment 5 textOversize,
        s.length ≤ 5 ∨ ∀ ch ∈ s, isPunctSec ch = false := by
  decide

theorem punctClauseStrong_nil (m : Nat) : PunctClauseStrong m [] := by
  intro i _ h2
  simp at h2

theorem punctClause_of_strong {m : Nat} {s : PyStr}
    (h : PunctClauseStrong m s) : PunctClause m s :=
  fun i h1 h2 => h i h1 (Nat.le_of_lt h2)

theorem getD_append_length (l : PyStr) (c : Char) (d : Char) :
    (l ++ [c]).getD l.length d = c := by
  induction l with
  | nil => rfl
  | cons x xs ih =>
    simp only [List.cons_append, List.length_cons, List.getD_cons_succ]
    exact ih

theorem punctClauseStrong_append {m : Nat} {cur : PyStr} {c : Char}
    (h : PunctClauseStrong m cur)
    (hc : ¬(m ≤ (cur ++ [c]).length ∧ isPunctSec c = true)) :
    PunctClauseStrong m (cur ++ [c]) := by
  intro i h1 h2
  rw [List.length_append, List.length_singleton] at h2
  rcases Nat.lt_trichotomy i cur.length with hlt | heq | hgt
  · rw [List.getD_append _ _ _ _ hlt]
    exact h i h1 hlt
  · subst heq
    rw [getD_append_length]
    by_cases hp : isPunctSec c = true
    · exact absurd ⟨by simpa using h1, hp⟩ hc
    · simpa using hp
  · omega

theorem punctClause_of_flush {m : Nat} {cur : PyStr} {c : Char}
    (h : PunctClauseStrong m cur) : PunctClause m (cur ++ [c]) := by
  intro i h1 h2
  rw [List.length_append, List.length_singleton] at h2
  have hlt : i < cur.length := by omega
  rw [List.getD_append _ _ _ _ hlt]
  exact h i h1 hlt

theorem forceSplitGo_clause (m : Nat) :
    ∀ (rest : PyStr) (cur : PyStr), PunctClauseStrong m cur →
      ∀ p ∈ forceSplitGo m cur rest, PunctClause m p := by
  intro rest
  induction rest with
  | nil =>
    intro cur hcur p hp
    by_cases h : cur = []
    · simp [forceSplitGo, h] at hp
    · simp [forceSplitGo, h] at hp
      rw [hp]
      exact punctClause_of_strong hcur
  | cons c rest ih =>
    intro cur hcur p hp
    by_cases hcond : (decide (m ≤ (cur ++ [c]).length) && isPunctSec c) = true
    · simp only [forceSplitGo, hcond, if_true] at hp
      rcases List.mem_cons.mp hp with h | h
      · rw [h]
        exact punctClause_of_flush hcur
      · exact ih [] (punctClauseStrong_nil m) p h
    · simp only [forceSplitGo, hcond, Bool.false_eq_true, if_false] at hp
      refine ih (cur ++ [c]) ?_ p hp
      apply punctClauseStrong_append hcur
      intro hand
      obtain ⟨hl, hpc⟩ := hand
      apply hcond
      rw [hpc]
      simp only [Bool.and_true]
      exact decide_eq_true hl

theorem forceSplitGo_eq_nil {m : Nat} :
    ∀ {text cur : PyStr}, forceSplitGo m cur text = [] → cur = [] ∧ text = [] := by
  intro text
  induction text with
  | nil =>
    intro cur h
    by_cases hc : cur = []
    · exact ⟨hc, rfl⟩
    · simp [forceSplitGo, hc] at h
  | cons c rest ih =>
    intro cur h
    by_cases hcond : (decide (m ≤ (cur ++ [c]).length) && isPunctSec c) = true
    · simp only [forceSplitGo, hcond, if_true] at h
      exact absurd h (by simp)
    · simp only [forceSplitGo, hcond, Bool.false_eq_true, if_false] at h
      have := (ih h).1
      exact absurd this (by simp)

theorem forceSplit_clause (m : Nat) (text : PyStr) :
    ∀ p ∈ forceSplitAtPunctuation m text, PunctClause m p := by
  intro p hp
  unfold forceSplitAtPunctuation at hp
  by_cases h : forceSplitGo m [] text = []
  · rw [h] at hp
    simp at hp
    have := (forceSplitGo_eq_nil h).2
    rw [hp, this]
    intro i _ h2
    simp at h2
  · rw [if_neg h] at hp
    exact forceSplitGo_clause m text [] (punctClauseStrong_nil m) p hp

theorem splitLongLoop_bound (m : Nat) :
    ∀ (sents : List PyStr) (segs : List PyStr) (cur : PyStr),
      (∀ x ∈ segs, x.length ≤ m ∨ PunctClause m x) →
      (cur.length ≤ m ∨ PunctClause m cur) →
      ∀ x ∈ splitLongLoop m segs cur sents, x.length ≤ m ∨ PunctClause m x := by
  intro sents
  induction sents with
  | nil =>
    intro segs cur hsegs hcur x hx
    by_cases hc : cur = []
    · simp only [splitLongLoop, hc, if_true] at hx
      exact hsegs x hx
    · simp only [splitLongLoop, hc, if_false] at hx
      rcases List.mem_append.mp hx with h | h
      · exact hsegs x h
      · simp at h
        rw [h]
        exact hcur
  | cons s rest ih =>
    intro segs cur hsegs hcur x hx
    by_cases h1 : cur.length + s.length ≤ m
    · simp only [splitLongLoop, if_pos h1] at hx
      refine ih segs (cur ++ s) hsegs ?_ x hx
      left
      rw [List.length_append]
      exact h1
    · simp only [splitLongLoop, if_neg h1] at hx
      have hsegs' : ∀ y ∈ (if cur = [] then segs else segs ++ [cur]),
          y.length ≤ m ∨ PunctClause m y := by
        intro y hy
        by_cases hc : cur = []
        · rw [if_pos hc] at hy
          exact hsegs y hy
        · rw [if_neg hc] at hy
          rcases List.mem_append.mp hy with h | h
          · exact hsegs y h
          · simp at h
            rw [h]
            exact hcur
      by_cases h2 : m < s.length
      · simp only [if_pos h2] at hx
        refine ih _ _ ?_ ?_ x hx
        · intro y hy
          rcases List.mem_append.mp hy with h | h
          · exact hsegs' y h
          · right
            exact forceSplit_clause m s y (List.dropLast_subset _ h)
        · cases hlast : (forceSplitAtPunctuation m s).getLast? with
          | none => simp [Nat.zero_le]
          | some p =>
            right
            simp only [hlast, Option.getD_some]
            exact forceSplit_clause m s p (List.mem_of_mem_getLast? hlast)
      · simp only [if_neg h2] at hx
        refine ih _ s hsegs' ?_ x hx
        left
        omega

/-- C4 (amended): every segment returned by `split_long_segment` either has
length at most `max_length`, or carries no secondary punctuation mark
strictly between position `max_length` and its end — i.e. an over-length
segment arises only from force-splitting, which cuts at the *first* mark at
or after the limit (the part may overrun `max_length` up to that mark, and a
trailing part with no further late mark may also overrun).  The original
claim's bound — oversize only for sentences with *no* punctuation at all —
fails (see the counterexample). -/
theorem split_long_segment_bound (m : Nat) (text : PyStr) :
    ∀ s ∈ splitLongSegment m text, s.length ≤ m ∨ PunctClause m s := by
  intro s hs
  unfold splitLongSegment at hs
  by_cases h : text.length ≤ m
  · rw [if_pos h] at hs
    simp at hs
    rw [hs]
    exact Or.inl h
  · rw [if_neg h] at hs
    exact splitLongLoop_bound m (splitIntoSentences text) [] []
      (by intro x hx; simp at hx) (Or.inl (Nat.zero_le m)) s hs

/-- Concrete instance of the amended C4 on the counterexample input. -/
theorem split_long_segment_bound_witness :
    (['h', 'i'] ∈ splitLongSegment 5 textOversize) ∧
      ((['h', 'i'] : PyStr).length ≤ 5 ∨ PunctClause 5 ['h', 'i']) :=
  ⟨by decide, split_long_segment_bound 5 textOversize ['h', 'i'] (by decide)⟩

/-- C7 counterexample: the 3-character input `"a\nb"` (non-empty,
non-whitespace, shorter than the default `min_length = 15`) contains a
sentence delimiter; `segment_text` strips each sentence and rejoins without
a separator, returning `["ab"]` rather than the trimmed input `"a\nb"`. -/
theorem segment_text_counterexample :
    stripChars textShortDelim ≠ [] ∧ textShortDelim.length < 15 ∧
      segmentText 15 500 textShortDelim ≠ [stripChars textShortDelim] := by
  refine ⟨by decide, by decide, by decide⟩

theorem splitKeepDelims_no_delim :
    ∀ {s : PyStr}, (∀ c ∈ s, isDelim c = false) → splitKeepDelims s = [s] := by
  intro s
  induction s with
  | nil => intro _; rfl
  | cons c rest ih =>
    intro h
    show splitKDStep c (splitKeepDelims rest) = [c :: rest]
    rw [ih fun x hx => h x (List.mem_cons_of_mem c hx)]
    unfold splitKDStep
    rw [if_neg (by simp [h c (List.mem_cons_self c rest)])]

/-- C7 (amended): `segment_text` on a non-empty, non-whitespace-only text
shorter than `min_length` returns exactly one segment equal to the trimmed
input, provided the text contains no sentence delimiter (terminal
punctuation or newline) and `min_length ≤ max_length` (as in the default
configuration); a short text containing a delimiter loses its
intra-sentence whitespace (see the counterexample). -/
theorem segment_text_short (minLen maxLen : Nat) (t : PyStr)
    (hne : stripChars t ≠ []) (hlen : t.length < minLen) (hmm : minLen ≤ maxLen)
    (hnd : ∀ c ∈ t, isDelim c = false) :
    segmentText minLen maxLen t = [stripChars t] := by
  have ht : t ≠ [] := by
    intro h
    rw [h] at hne
    exact hne rfl
  have h1 : splitIntoSentences t = [stripChars t] := by
    unfold splitIntoSentences
    rw [if_neg ht, splitKeepDelims_no_delim hnd]
    unfold attachDelims
    rw [if_neg hne]
  have h2 : mergeShortSentences minLen [stripChars t] = [stripChars t] := by
    unfold mergeShortSentences mergeShortAux
    rw [stripChars_idem, if_neg hne, if_pos rfl]
    unfold mergeShortAux
    rw [if_neg hne]
  have hlen2 : ¬ maxLen < (stripChars t).length := by
    have := stripChars_length_le t
    omega
  unfold segmentText
  rw [if_neg hne, h1, h2]
  dsimp only
  simp only [List.flatMap_cons, List.flatMap_nil, List.append_nil]
  rw [if_neg hlen2]
  have hg : (if stripChars (stripChars t) = [] then none
      else some (stripChars (stripChars t))) = some (stripChars t) := by
    rw [stripChars_idem, if_neg hne]
  simp only [List.filterMap_cons, hg, List.filterMap_nil]

/-- Concrete instance of the amended C7: `"abc"` with the default
configuration is returned as the single trimmed segment. -/
theorem segment_text_short_witness :
    segmentText 15 500 textShortPlain = [stripChars textShortPlain] :=
  segment_text_short 15 500 textShortPlain (by decide) (by decide) (by decide)
    (by decide)
